import Mathlib

/-!
Verification of the permission-policy layer of `fastapi_user_auth`
(`fastapi_user_auth/utils.py`) against its natural-language specification.

Python strings are embedded as `List Char` (`PyStr`), Python string methods
(`split`, `join`, `strip`, `replace`) as executable Lean functions with the
same semantics.  The external casbin enforcer is out of scope per the spec:
its policy store is passed in explicitly (as the list of rule tuples a
`get_filtered_policy`-style query would traverse, or as the already-fetched
result of an awaited query) and the store-mutating calls issued by the code
are returned as explicit data instead of being performed.
-/

/-- Python `str` embedded as a list of characters. -/
abbrev PyStr := List Char

/-- Python `s.split(sep)` for a one-character separator: splits at every
occurrence of `sep`, keeping empty pieces; `"".split(sep) == [""]`. -/
def pySplit (sep : Char) : PyStr → List PyStr
  | [] => [[]]
  | c :: cs =>
    let r := pySplit sep cs
    if c = sep then [] :: r
    else (c :: r.headD []) :: r.tail

/-- Python `sep.join(xs)` for a one-character separator. -/
def pyJoin (sep : Char) : List PyStr → PyStr
  | [] => []
  | [x] => x
  | x :: y :: ys => x ++ sep :: pyJoin sep (y :: ys)

/-- Python `s.strip(c)` for a one-character argument: removes every leading
and trailing occurrence of `c`. -/
def pyStrip (sep : Char) (s : PyStr) : PyStr :=
  ((s.dropWhile (· = sep)).reverse.dropWhile (· = sep)).reverse

/-- Python `s.replace(old, new)`: replaces every non-overlapping occurrence
of `old` left to right.  (For `old = ""` Python interleaves `new` everywhere;
the source only ever calls this with the literal `"admin:"`, and this
embedding returns `s` unchanged for an empty pattern.) -/
def pyReplace (old new : PyStr) : PyStr → PyStr
  | [] => []
  | c :: cs =>
    if old ≠ [] ∧ old.isPrefixOf (c :: cs) then
      new ++ pyReplace old new ((c :: cs).drop old.length)
    else
      c :: pyReplace old new cs
termination_by s => s.length
decreasing_by
  · simp only [List.length_drop]
    cases old with
    | nil => simp_all
    | cons o os => simp [List.length_cons]; omega
  · simp [List.length_cons]

/-- `casbin_permission_encode(*field_values)`: joins the non-`None` fields
with the delimiter `#`. -/
def casbin_permission_encode (field_values : List (Option PyStr)) : PyStr :=
  pyJoin '#' (field_values.filterMap id)

/-- `casbin_permission_encode` applied to all-`str` (non-`None`) arguments,
as at every call site in the source. -/
def encodeS (field_values : List PyStr) : PyStr :=
  casbin_permission_encode (field_values.map some)

/-- `casbin_permission_decode(permission)`:
`permission.strip("#").split("#")`. -/
def casbin_permission_decode (permission : PyStr) : List PyStr :=
  pySplit '#' (pyStrip '#' permission)

-- ---------------------------------------------------------------------------
-- data model: capability options and the admin hierarchy
-- ---------------------------------------------------------------------------

/-- One node of the amis option tree built by `get_admin_action_options`:
the Python dict with keys `label`, `value`, `sort` and (optionally)
`children`.  Action children carry no `sort` key, embedded as `none`; a
missing `children` key and an empty children list behave identically in
every pure function modelled here and are both embedded as `[]` (the
heap model `HNode` below keeps the distinction where it matters). -/
inductive MenuOption : Type where
  | mk (label : PyStr) (value : PyStr) (sort : Option Int)
      (children : List MenuOption)

def MenuOption.label : MenuOption → PyStr
  | .mk lb _ _ _ => lb

def MenuOption.value : MenuOption → PyStr
  | .mk _ v _ _ => v

def MenuOption.sort : MenuOption → Option Int
  | .mk _ _ s _ => s

def MenuOption.children : MenuOption → List MenuOption
  | .mk _ _ _ c => c

/-- The sort key `p["sort"] or 0` used by `options.sort(...)`: a missing or
`None` (or zero) sort collapses to `0`. -/
def sortKey (o : MenuOption) : Int := (MenuOption.sort o).getD 0

/-- Stable descending insertion used to model Python's stable
`list.sort(key=..., reverse=True)`: the inserted (earlier) element goes in
front of the first element whose key is not larger. -/
def insertDescMenu (x : MenuOption) : List MenuOption → List MenuOption
  | [] => [x]
  | y :: ys => if sortKey y ≤ sortKey x then x :: y :: ys else y :: insertDescMenu x ys

/-- `options.sort(key=lambda p: p["sort"] or 0, reverse=True)` — Python's
sort is stable; any stable descending sort computes the same list, so it is
modelled by stable insertion sort. -/
def pySortDesc : List MenuOption → List MenuOption
  | [] => []
  | x :: xs => insertDescMenu x (pySortDesc xs)

/-- Adjacent-pairs check that a sibling list is descending by `sortKey`. -/
def descByKey : List MenuOption → Bool
  | [] => true
  | [_] => true
  | x :: y :: rest => decide (sortKey y ≤ sortKey x) && descByKey (y :: rest)

mutual

/-- Every sibling list strictly inside the node is descending by key. -/
def nodeOK : MenuOption → Bool
  | .mk _ _ _ c => descByKey c && forestOK c

def forestOK : List MenuOption → Bool
  | [] => true
  | o :: rest => nodeOK o && forestOK rest

end

/-- Recursively sort all children lists (not the outermost list). -/
def sortEach : List MenuOption → List MenuOption
  | [] => []
  | .mk lb v s c :: rest => .mk lb v s (pySortDesc (sortEach c)) :: sortEach rest

/-- Sort every sibling list of an option forest, outermost included. -/
def sortTree (l : List MenuOption) : List MenuOption := pySortDesc (sortEach l)

/-- The `page_schema` attribute: display label and sort weight. -/
structure PageSchema where
  label : PyStr
  sort : Option Int

/-- One node of the admin hierarchy (the `fastapi_amis_admin` collaborator),
as consumed by the source: a `PageSchemaAdmin` with a `unique_id`, an
optional `page_schema`, its owning application (`admin.app` — `appSelf`
records whether `admin is admin.app`, `appId` is `admin.app.unique_id`),
and its capability kind: plain page, `ModelAdmin`, `FormAdmin`, other
`BaseActionAdmin` (each with its `registered_admin_actions` as an ordered
name/label list), or `AdminGroup` with its member admins. -/
inductive Admin : Type where
  | page (uniqueId : PyStr) (schema : Option PageSchema) (appSelf : Bool)
      (appId : PyStr)
  | modelA (uniqueId : PyStr) (schema : Option PageSchema) (appSelf : Bool)
      (appId : PyStr) (actions : List (PyStr × PyStr))
  | formA (uniqueId : PyStr) (schema : Option PageSchema) (appSelf : Bool)
      (appId : PyStr) (actions : List (PyStr × PyStr))
  | actionA (uniqueId : PyStr) (schema : Option PageSchema) (appSelf : Bool)
      (appId : PyStr) (actions : List (PyStr × PyStr))
  | group (uniqueId : PyStr) (schema : Option PageSchema) (appSelf : Bool)
      (appId : PyStr) (children : List Admin)

def Admin.uniqueId : Admin → PyStr
  | .page u _ _ _ => u
  | .modelA u _ _ _ _ => u
  | .formA u _ _ _ _ => u
  | .actionA u _ _ _ _ => u
  | .group u _ _ _ _ => u

def Admin.appSelf : Admin → Bool
  | .page _ _ b _ => b
  | .modelA _ _ b _ _ => b
  | .formA _ _ b _ _ => b
  | .actionA _ _ b _ _ => b
  | .group _ _ b _ _ => b

def Admin.appId : Admin → PyStr
  | .page _ _ _ i => i
  | .modelA _ _ _ i _ => i
  | .formA _ _ _ i _ => i
  | .actionA _ _ _ i _ => i
  | .group _ _ _ i _ => i

/-- The child options appended for `admin.registered_admin_actions.values()`:
`{"label": action.label, "value": encode(uid, "admin:"+name, "page")}`. -/
def actionItems (uid : PyStr) : List (PyStr × PyStr) → List MenuOption
  | [] => []
  | (name, lbl) :: rest =>
    MenuOption.mk lbl
        (encodeS [uid, ("admin:").toList ++ name, ("page").toList]) none []
      :: actionItems uid rest

/-- The children list built for a `ModelAdmin`: the two fixed
`admin:list` / `admin:filter` options followed by the registered actions. -/
def modelChildren (uid : PyStr) (acts : List (PyStr × PyStr)) :
    List MenuOption :=
  MenuOption.mk ("查看列表").toList
      (encodeS [uid, ("admin:list").toList, ("page").toList]) none []
    :: MenuOption.mk ("筛选列表").toList
        (encodeS [uid, ("admin:filter").toList, ("page").toList]) none []
    :: actionItems uid acts

/-- The children list built for a `FormAdmin`: a synthesized `admin:submit`
option when no `submit` action is registered, then the registered
actions. -/
def formChildren (uid : PyStr) (acts : List (PyStr × PyStr)) :
    List MenuOption :=
  (if ("submit").toList ∈ acts.map Prod.fst then []
    else [MenuOption.mk ("提交").toList
        (encodeS [uid, ("admin:submit").toList, ("page").toList]) none []])
    ++ actionItems uid acts

mutual

/-- `get_admin_action_options(group)`: builds one option per admin with a
page schema (children per capability kind, recursion into sub-groups) and
sorts the resulting sibling list by `sort or 0` descending (stable). -/
def get_admin_action_options (g : List Admin) : List MenuOption :=
  pySortDesc (buildItems g)

/-- The option list accumulated by the `for admin in group` loop of
`get_admin_action_options`, before the final `options.sort(...)`. -/
def buildItems : List Admin → List MenuOption
  | [] => []
  | .page u sch _ _ :: rest =>
    match sch with
    | none => buildItems rest
    | some ps =>
      MenuOption.mk ps.label
          (encodeS [u, ("admin:page").toList, ("page").toList]) ps.sort []
        :: buildItems rest
  | .modelA u sch _ _ acts :: rest =>
    match sch with
    | none => buildItems rest
    | some ps =>
      MenuOption.mk ps.label
          (encodeS [u, ("admin:page").toList, ("page").toList]) ps.sort
          (modelChildren u acts)
        :: buildItems rest
  | .formA u sch _ _ acts :: rest =>
    match sch with
    | none => buildItems rest
    | some ps =>
      MenuOption.mk ps.label
          (encodeS [u, ("admin:page").toList, ("page").toList]) ps.sort
          (formChildren u acts)
        :: buildItems rest
  | .actionA u sch _ _ acts :: rest =>
    match sch with
    | none => buildItems rest
    | some ps =>
      MenuOption.mk ps.label
          (encodeS [u, ("admin:page").toList, ("page").toList]) ps.sort
          (actionItems u acts)
        :: buildItems rest
  | .group u sch _ _ cs :: rest =>
    match sch with
    | none => buildItems rest
    | some ps =>
      MenuOption.mk ps.label
          (encodeS [u, ("admin:page").toList, ("page").toList]) ps.sort
          (get_admin_action_options cs)
        :: buildItems rest

end

/-- `buildItems` with every `options.sort(...)` call removed: the raw
traversal order at every level, used to state sort stability. -/
def buildUnsorted : List Admin → List MenuOption
  | [] => []
  | .page u sch _ _ :: rest =>
    match sch with
    | none => buildUnsorted rest
    | some ps =>
      MenuOption.mk ps.label
          (encodeS [u, ("admin:page").toList, ("page").toList]) ps.sort []
        :: buildUnsorted rest
  | .modelA u sch _ _ acts :: rest =>
    match sch with
    | none => buildUnsorted rest
    | some ps =>
      MenuOption.mk ps.label
          (encodeS [u, ("admin:page").toList, ("page").toList]) ps.sort
          (modelChildren u acts)
        :: buildUnsorted rest
  | .formA u sch _ _ acts :: rest =>
    match sch with
    | none => buildUnsorted rest
    | some ps =>
      MenuOption.mk ps.label
          (encodeS [u, ("admin:page").toList, ("page").toList]) ps.sort
          (formChildren u acts)
        :: buildUnsorted rest
  | .actionA u sch _ _ acts :: rest =>
    match sch with
    | none => buildUnsorted rest
    | some ps =>
      MenuOption.mk ps.label
          (encodeS [u, ("admin:page").toList, ("page").toList]) ps.sort
          (actionItems u acts)
        :: buildUnsorted rest
  | .group u sch _ _ cs :: rest =>
    match sch with
    | none => buildUnsorted rest
    | some ps =>
      MenuOption.mk ps.label
          (encodeS [u, ("admin:page").toList, ("page").toList]) ps.sort
          (buildUnsorted cs)
        :: buildUnsorted rest

-- ---------------------------------------------------------------------------
-- tree filter and per-subject option tree
-- ---------------------------------------------------------------------------

/-- `filter_options(options, filter_func)`: keeps the options passing
`filter_func` in order; for a kept option with a truthy (non-empty)
`children` value the children are filtered recursively; a falsy `children`
value is left as it is.  Kept options are shallow-copied dicts (value-level
behaviour only here; aliasing is modelled by `filter_optionsH` below). -/
def filter_options (f : MenuOption → Bool) : List MenuOption → List MenuOption
  | [] => []
  | .mk lb v s c :: rest =>
    if f (.mk lb v s c) then
      MenuOption.mk lb v s (if c.isEmpty then c else filter_options f c)
        :: filter_options f rest
    else filter_options f rest

/-- A node as retained by `filter_options`: same dict entries, children
filtered recursively. -/
def refineNode (f : MenuOption → Bool) : MenuOption → MenuOption
  | .mk lb v s c => .mk lb v s (filter_options f c)

/-- The non-recursive dict entries of an option (`label`, `value`, `sort`). -/
def topData : MenuOption → PyStr × PyStr × Option Int
  | .mk lb v s _ => (lb, v, s)

/-- `casbin_permission_enforce(enforcer, subject, permission)`: decodes the
permission string and calls `enforcer.enforce(subject, *values)`.  The
enforcer is the opaque external collaborator; its `enforce` is a function
parameter. -/
def casbin_permission_enforce (enforce : PyStr → List PyStr → Bool)
    (subject permission : PyStr) : Bool :=
  enforce subject (casbin_permission_decode permission)

/-- `get_admin_action_options_by_subject(enforcer, subject, group)`.
Modelled from the spec: `SystemUserEnum.ROOT` lives in
`fastapi_user_auth/auth/schemas.py`, which is not under `src/`; the spec
fixes no concrete value ("the system ROOT user name"), so the root user
name is the parameter `ROOT` and every statement quantifies over it. -/
def get_admin_action_options_by_subject (ROOT : PyStr)
    (enforce : PyStr → List PyStr → Bool) (subject : PyStr)
    (g : List Admin) : List MenuOption :=
  let options := get_admin_action_options g
  if subject ≠ ("u:").toList ++ ROOT then
    filter_options
      (fun item => casbin_permission_enforce enforce subject item.value)
      options
  else options

-- ---------------------------------------------------------------------------
-- subject policy reconcilers
-- ---------------------------------------------------------------------------

/-- The desired role-edge set of `casbin_update_subject_roles`:
`{(subject, "r:"+role) for role in role_keys.split(",")
  if role and "r:"+role != subject}`. -/
def newSubjectRoles (subject role_keys : PyStr) : Finset (PyStr × PyStr) :=
  ((pySplit ',' role_keys).filterMap fun role =>
    if role ≠ [] ∧ ("r:").toList ++ role ≠ subject then
      some (subject, ("r:").toList ++ role)
    else none).toFinset

/-- `casbin_update_subject_roles(enforcer, subject, role_keys)`: deletes all
role edges of `subject` (`delete_roles_for_user`) and, when non-empty, adds
the parsed role set (`add_grouping_policies`).  `state` is the enforcer's
`g`-namespace edge set; the result is the new edge set and whether the add
call was issued. -/
def casbin_update_subject_roles (state : Finset (PyStr × PyStr))
    (subject role_keys : PyStr) : Finset (PyStr × PyStr) × Bool :=
  let new_roles := newSubjectRoles subject role_keys
  let after_delete := state.filter fun e => e.1 ≠ subject
  (if new_roles = ∅ then after_delete else after_delete ∪ new_roles,
    decide (new_roles ≠ ∅))

/-- casbin's `get_filtered_policy` matching: an empty filter value matches
any field, a non-empty one must equal the rule's field at that index (a
rule shorter than the filter never matches; stored rules share the model
arity). -/
def ruleMatches : List PyStr → List PyStr → Bool
  | [], _ => true
  | _ :: _, [] => false
  | v :: vs, r :: rs => (v.isEmpty || v == r) && ruleMatches vs rs

/-- The store calls issued by one `casbin_update_subject_permissions` run:
each batch call carries the set of rule tuples it is issued with, `none`
when the call is skipped. -/
structure PermUpdateResult where
  remove_call : Option (Finset (List PyStr))
  add_call : Option (Finset (List PyStr))
  returned : List PyStr

/-- `casbin_update_subject_permissions(enforcer, subject=..,
permissions=..)`: fetches the stored page-domain rules of `subject`
(`get_filtered_policy(0, subject, "", "", "page")` over the policy store
`store`), builds the desired `(subject, *decode(p), "allow")` tuples, and
issues `remove_policies` / `add_policies` with the set differences, each
only when non-empty. -/
def casbin_update_subject_permissions (store : List (List PyStr))
    (subject : PyStr) (permissions : List PyStr) : PermUpdateResult :=
  let old_rules := store.filter (ruleMatches [subject, [], [], ("page").toList])
  let old : Finset (List PyStr) := old_rules.toFinset
  let new_rules : Finset (List PyStr) :=
    (permissions.map fun p =>
      subject :: (casbin_permission_decode p ++ [("allow").toList])).toFinset
  let remove_rules := old \ new_rules
  let add_rules := new_rules \ old
  { remove_call := if remove_rules = ∅ then none else some remove_rules
    add_call := if add_rules = ∅ then none else some add_rules
    returned := permissions }

-- ---------------------------------------------------------------------------
-- field policy matrix builder
-- ---------------------------------------------------------------------------

/-- One UI row passed to `casbin_get_subject_field_policy_matrix`: its
`"rol"` key, plus the value of a pre-existing `"checked"` key if the dict
has one (`none` when absent).  Other keys never influence the code. -/
structure FieldRow where
  rol : PyStr
  checked : Option Bool
deriving DecidableEq

/-- An output row `{"checked": flag, **row}`: because `**row` is spread
after the `"checked"` entry, a `"checked"` key already present in `row`
overwrites the computed flag. -/
structure FieldItem where
  rol : PyStr
  checked : Bool
deriving DecidableEq

/-- `{"checked": x, **row}` as a `FieldItem`. -/
def rowItem (row : FieldRow) (x : Bool) : FieldItem :=
  { rol := row.rol, checked := row.checked.getD x }

/-- `rule[-1]` (stored rules are non-empty; the matrix builder guards). -/
def ruleEffect (r : List PyStr) : PyStr := r.getLastD []

/-- `casbin_permission_encode(*rule[1:-1])`. -/
def rulePerm (r : List PyStr) : PyStr := encodeS ((r.drop 1).dropLast)

/-- `enforcer.get_filtered_policy(0, subject, v1, v2, "", "")` over the
policy store. -/
def fieldPolicyFilteredRules (store : List (List PyStr))
    (subject v1 v2 : PyStr) : List (List PyStr) :=
  store.filter (ruleMatches [subject, v1, v2, [], []])

/-- The `allow_rule` set of the matrix builder. -/
def fieldAllowSet (rules : List (List PyStr)) : Finset PyStr :=
  ((rules.filter fun r => ruleEffect r == ("allow").toList).map rulePerm).toFinset

/-- The `deny_rule` set of the matrix builder (any effect other than
`"allow"`). -/
def fieldDenySet (rules : List (List PyStr)) : Finset PyStr :=
  ((rules.filter fun r => ruleEffect r != ("allow").toList).map rulePerm).toFinset

/-- The `for row in rows` loop of the matrix builder: appends
`{"checked": flag, **row}` items to the default/allow/deny lists, with the
`True` flag in the allow list when `row["rol"]` is in the allow set, else
the deny list when in the deny set, else the default list. -/
def buildRowsTriple (allowR denyR : Finset PyStr) :
    List FieldRow → List FieldItem × List FieldItem × List FieldItem
  | [] => ([], [], [])
  | row :: rest =>
    let t := buildRowsTriple allowR denyR rest
    if row.rol ∈ allowR then
      (rowItem row false :: t.1, rowItem row true :: t.2.1,
        rowItem row false :: t.2.2)
    else if row.rol ∈ denyR then
      (rowItem row false :: t.1, rowItem row false :: t.2.1,
        rowItem row true :: t.2.2)
    else
      (rowItem row true :: t.1, rowItem row false :: t.2.1,
        rowItem row false :: t.2.2)

/-- `casbin_get_subject_field_policy_matrix(enforcer, subject=..,
permission=.., rows=..)`: decodes the permission into exactly three fields
(`none` models the `ValueError` of a failed unpacking), applies the
`"admin:" -> "page:"` compatibility rewrite to `v2`, queries the stored
field rules, partitions them into allow/deny by effect (`none` models the
`IndexError` of `rule[-1]` on an empty stored rule), and builds the
default/allow/deny row triple. -/
def casbin_get_subject_field_policy_matrix (store : List (List PyStr))
    (subject permission : PyStr) (rows : List FieldRow) :
    Option (List FieldItem × List FieldItem × List FieldItem) :=
  match casbin_permission_decode permission with
  | [v1, v2, _v3] =>
    let v2r := pyReplace ("admin:").toList ("page:").toList v2
    let rules := fieldPolicyFilteredRules store subject v1 v2r
    if rules.any fun r => r.isEmpty then none
    else some (buildRowsTriple (fieldAllowSet rules) (fieldDenySet rules) rows)
  | _ => none

-- ---------------------------------------------------------------------------
-- hierarchy synchronizer
-- ---------------------------------------------------------------------------

/-- `get_admin_grouping(group)`: for each admin in the group, skip it
entirely when `admin is admin.app`; otherwise contribute the edge
`(admin.app.unique_id, admin.unique_id)` and recurse into sub-groups. -/
def get_admin_grouping : List Admin → List (PyStr × PyStr)
  | [] => []
  | a :: rest =>
    if a.appSelf then get_admin_grouping rest
    else
      ((a.appId, a.uniqueId) ::
        (match a with
         | .group _ _ _ _ cs => get_admin_grouping cs
         | _ => [])) ++ get_admin_grouping rest

/-- The nodes that contribute edges, following the spec's words: "an admin
node whose owning application is itself ... contributes no edge; every
other node contributes (owning-application-id, node-id); sub-groups
recurse". -/
def groupingNodes : List Admin → List Admin
  | [] => []
  | a :: rest =>
    if a.appSelf then groupingNodes rest
    else
      (a ::
        (match a with
         | .group _ _ _ _ cs => groupingNodes cs
         | _ => [])) ++ groupingNodes rest

/-- The store calls issued by one `casbin_update_site_grouping` run. -/
structure GroupUpdateResult where
  remove_call : Option (Finset (PyStr × PyStr))
  add_call : Option (Finset (PyStr × PyStr))

/-- `casbin_update_site_grouping(enforcer, site)`: reads all `g2` edges
(`fetched` is the awaited `get_filtered_named_grouping_policy("g2", 0)`
result), derives the admin grouping, and issues
`remove_named_grouping_policies` / `add_named_grouping_policies` with the
set differences, each only when non-empty. -/
def casbin_update_site_grouping (fetched : List (PyStr × PyStr))
    (site : List Admin) : GroupUpdateResult :=
  let old_roles := fetched.toFinset
  let new_roles := (get_admin_grouping site).toFinset
  let remove_roles := old_roles \ new_roles
  let add_roles := new_roles \ old_roles
  { remove_call := if remove_roles = ∅ then none else some remove_roles
    add_call := if add_roles = ∅ then none else some add_roles }

-- ---------------------------------------------------------------------------
-- heap model of filter_options for the aliasing claim
-- ---------------------------------------------------------------------------

/-- An option node with Python object identities: `addr` is the identity of
the dict, and a present `children` key carries the identity of its list
object together with the node elements. -/
inductive HNode : Type where
  | mk (addr : Nat) (label : PyStr) (value : PyStr) (sort : Option Int)
      (children : Option (Nat × List HNode))

/-- `filter_options` with explicit allocation: `copy(option)` allocates a
fresh dict identity, and `option["children"] = filter_options(...)`
installs the freshly allocated result list — but only when the original
`children` value is truthy (non-empty).  A kept falsy `children` list keeps
its original identity.  `ctr` is the allocator; fresh identities are
`ctr, ctr+1, ...`. -/
def filter_optionsH (f : HNode → Bool) : Nat → List HNode → Nat × List HNode
  | _ctr, [] => (_ctr, [])
  | ctr, .mk a lb v s ch :: rest =>
    if f (.mk a lb v s ch) then
      match ch with
      | some (la, kids) =>
        if kids.isEmpty then
          let t := filter_optionsH f (ctr + 1) rest
          (t.1, .mk ctr lb v s (some (la, [])) :: t.2)
        else
          let k := filter_optionsH f (ctr + 1) kids
          let t := filter_optionsH f (k.1 + 1) rest
          (t.1, .mk ctr lb v s (some (k.1, k.2)) :: t.2)
      | none =>
        let t := filter_optionsH f (ctr + 1) rest
        (t.1, .mk ctr lb v s none :: t.2)
    else filter_optionsH f ctr rest

mutual

/-- All mutable-object identities reachable from a node: its dict and, when
the `children` key is present, the children list and the child nodes. -/
def hAddrs : HNode → List Nat
  | .mk a _ _ _ none => [a]
  | .mk a _ _ _ (some (la, kids)) => a :: la :: hAddrsList kids

def hAddrsList : List HNode → List Nat
  | [] => []
  | o :: rest => hAddrs o ++ hAddrsList rest

end

mutual

/-- No node holds a present-but-empty `children` list. -/
def hNoEmptyChild : HNode → Bool
  | .mk _ _ _ _ none => true
  | .mk _ _ _ _ (some (_, kids)) => !kids.isEmpty && hNoEmptyChildList kids

def hNoEmptyChildList : List HNode → Bool
  | [] => true
  | o :: rest => hNoEmptyChild o && hNoEmptyChildList rest

end

-- ---------------------------------------------------------------------------
-- helper lemmas about the string primitives
-- ---------------------------------------------------------------------------

theorem pySplit_ne_nil (sep : Char) (s : PyStr) : pySplit sep s ≠ [] := by
  cases s with
  | nil => simp [pySplit]
  | cons c cs =>
    simp only [pySplit]
    split <;> simp

theorem pySplit_length_pos (sep : Char) (s : PyStr) :
    1 ≤ (pySplit sep s).length := by
  have h := pySplit_ne_nil sep s
  cases he : pySplit sep s with
  | nil => exact absurd he h
  | cons a l => simp

/-- Splitting a string that starts with a separator-free block `x`. -/
theorem pySplit_append_of_not_mem (sep : Char) (x s : PyStr) (hx : sep ∉ x) :
    pySplit sep (x ++ s) =
      (x ++ (pySplit sep s).headD []) :: (pySplit sep s).tail := by
  induction x with
  | nil =>
    simp only [List.nil_append]
    have h := pySplit_ne_nil sep s
    cases he : pySplit sep s with
    | nil => exact absurd he h
    | cons a l => simp
  | cons c cs ih =>
    have hc : c ≠ sep := by
      intro h; exact hx (h ▸ List.mem_cons_self c cs)
    have hcs : sep ∉ cs := fun h => hx (List.mem_cons_of_mem c h)
    have hstep : pySplit sep (c :: (cs ++ s)) =
        (c :: (pySplit sep (cs ++ s)).headD []) ::
          (pySplit sep (cs ++ s)).tail := by
      simp [pySplit, hc]
    rw [List.cons_append, hstep, ih hcs]
    simp

theorem pySplit_pyJoin (sep : Char) (fields : List PyStr)
    (hne : fields ≠ []) (hsep : ∀ f ∈ fields, sep ∉ f) :
    pySplit sep (pyJoin sep fields) = fields := by
  induction fields with
  | nil => exact absurd rfl hne
  | cons x xs ih =>
    cases xs with
    | nil =>
      have hx : sep ∉ x := hsep x (List.mem_cons_self x [])
      have := pySplit_append_of_not_mem sep x [] hx
      simpa [pyJoin, pySplit] using this
    | cons y ys =>
      have hx : sep ∉ x := hsep x (List.mem_cons_self x (y :: ys))
      have hys : ∀ f ∈ y :: ys, sep ∉ f := fun f hf =>
        hsep f (List.mem_cons_of_mem x hf)
      have ihr := ih (by simp) hys
      have hsplit : pySplit sep (sep :: pyJoin sep (y :: ys)) =
          [] :: pySplit sep (pyJoin sep (y :: ys)) := by
        simp [pySplit]
      calc pySplit sep (pyJoin sep (x :: y :: ys))
          = pySplit sep (x ++ sep :: pyJoin sep (y :: ys)) := by simp [pyJoin]
        _ = (x ++ ([] :: pySplit sep (pyJoin sep (y :: ys))).headD []) ::
              ([] :: pySplit sep (pyJoin sep (y :: ys))).tail := by
            rw [pySplit_append_of_not_mem sep x _ hx, hsplit]
        _ = x :: pySplit sep (pyJoin sep (y :: ys)) := by simp
        _ = x :: y :: ys := by rw [ihr]

theorem dropWhile_eq_self_of_head (p : Char → Bool) (s : PyStr)
    (h : ∀ c, s.head? = some c → p c = false) : s.dropWhile p = s := by
  cases s with
  | nil => simp
  | cons c cs =>
    have := h c rfl
    simp [List.dropWhile, this]

/-- Stripping is the identity on a string that neither starts nor ends with
the stripped character. -/
theorem pyStrip_eq_self (sep : Char) (s : PyStr)
    (hh : ∀ c, s.head? = some c → c ≠ sep)
    (hl : ∀ c, s.getLast? = some c → c ≠ sep) : pyStrip sep s = s := by
  unfold pyStrip
  rw [dropWhile_eq_self_of_head _ s (by
    intro c hc
    simp [hh c hc])]
  rw [dropWhile_eq_self_of_head _ s.reverse (by
    intro c hc
    rw [List.head?_reverse] at hc
    simp [hl c hc])]
  exact List.reverse_reverse s

theorem pyJoin_head? (sep : Char) (x : PyStr) (xs : List PyStr) (hx : x ≠ []) :
    (pyJoin sep (x :: xs)).head? = x.head? := by
  cases xs with
  | nil => simp [pyJoin]
  | cons y ys =>
    simp only [pyJoin]
    cases x with
    | nil => exact absurd rfl hx
    | cons c cs => simp

theorem pyJoin_ne_nil_of_last (sep : Char) (fields : List PyStr)
    (hne : fields ≠ []) (hlast : fields.getLast hne ≠ []) :
    pyJoin sep fields ≠ [] := by
  induction fields with
  | nil => exact absurd rfl hne
  | cons x xs ih =>
    cases xs with
    | nil =>
      simpa [pyJoin] using hlast
    | cons y ys =>
      simp [pyJoin]

theorem pyJoin_getLast?_of_last (sep : Char) :
    ∀ (fields : List PyStr) (x : PyStr), x ≠ [] → fields.getLast? = some x →
      (pyJoin sep fields).getLast? = x.getLast? ∧ pyJoin sep fields ≠ []
  | [], x, _, h => by simp at h
  | [z], x, hx, h => by
    simp only [List.getLast?_singleton, Option.some.injEq] at h
    subst h
    exact ⟨by simp [pyJoin], by simpa [pyJoin] using hx⟩
  | z :: w :: ws, x, hx, h => by
    have h' : (w :: ws).getLast? = some x := by
      simpa [List.getLast?_cons_cons] using h
    obtain ⟨ih1, ih2⟩ := pyJoin_getLast?_of_last sep (w :: ws) x hx h'
    obtain ⟨d, ds, hds⟩ := List.exists_cons_of_ne_nil ih2
    constructor
    · calc (pyJoin sep (z :: w :: ws)).getLast?
          = (z ++ sep :: pyJoin sep (w :: ws)).getLast? := by simp [pyJoin]
        _ = (sep :: pyJoin sep (w :: ws)).getLast? := by
            rw [List.getLast?_append_of_ne_nil]; simp
        _ = (pyJoin sep (w :: ws)).getLast? := by
            rw [hds]; exact List.getLast?_cons_cons
        _ = x.getLast? := ih1
    · simp [pyJoin]

theorem encodeS_eq_pyJoin (fields : List PyStr) :
    casbin_permission_encode (fields.map some) = pyJoin '#' fields := by
  simp [casbin_permission_encode, List.filterMap_map, List.filterMap_some]

-- ---------------------------------------------------------------------------
-- C3 / C10: the permission codec
-- ---------------------------------------------------------------------------

/-- C3 (counterexample): the round-trip claim fails as stated: the field
sequence `["", "a"]` consists of non-null fields containing no `#`, yet
`casbin_permission_decode (casbin_permission_encode ["", "a"])` is `["a"]`,
because `encode` produces `"#a"` and `decode` strips the leading `#`. -/
theorem C3_roundtrip_counterexample :
    (∀ f ∈ [([] : PyStr), ("a").toList], '#' ∉ f) ∧
      casbin_permission_decode
          (casbin_permission_encode ([([] : PyStr), ("a").toList].map some)) ≠
        [([] : PyStr), ("a").toList] := by
  constructor
  · decide
  · decide

/-- C3 (amended): for every non-empty sequence of non-null fields, none
containing the delimiter `#` and with non-empty first and last fields,
`casbin_permission_decode (casbin_permission_encode fields)` returns the
original field sequence.  (Interior fields may be empty.) -/
theorem C3_roundtrip (fields : List PyStr) (hne : fields ≠ [])
    (hsep : ∀ f ∈ fields, '#' ∉ f)
    (hhead : fields.head hne ≠ [])
    (hlast : fields.getLast hne ≠ []) :
    casbin_permission_decode (casbin_permission_encode (fields.map some)) =
      fields := by
  rw [encodeS_eq_pyJoin]
  unfold casbin_permission_decode
  have hstrip : pyStrip '#' (pyJoin '#' fields) = pyJoin '#' fields := by
    apply pyStrip_eq_self
    · intro c hc
      obtain ⟨x, xs, hx⟩ := List.exists_cons_of_ne_nil hne
      subst hx
      have hxne : x ≠ [] := by simpa using hhead
      rw [pyJoin_head? '#' x xs hxne] at hc
      obtain ⟨d, ds, hd⟩ := List.exists_cons_of_ne_nil hxne
      subst hd
      simp only [List.head?_cons, Option.some.injEq] at hc
      subst hc
      exact fun h => hsep _ (List.mem_cons_self _ _) (h ▸ List.mem_cons_self _ _)
    · intro c hc
      have hlq : fields.getLast? = some (fields.getLast hne) :=
        List.getLast?_eq_getLast fields hne
      obtain ⟨h1, _⟩ :=
        pyJoin_getLast?_of_last '#' fields (fields.getLast hne) hlast hlq
      rw [h1] at hc
      have hmem : c ∈ fields.getLast hne := by
        obtain ⟨d, ds, hd⟩ := List.exists_cons_of_ne_nil hlast
        rw [hd] at hc ⊢
        rw [List.getLast?_eq_getLast _ (by simp)] at hc
        simp only [Option.some.injEq] at hc
        exact hc ▸ List.getLast_mem _
      intro h
      exact hsep _ (List.getLast_mem hne) (h ▸ hmem)
  rw [hstrip]
  exact pySplit_pyJoin '#' fields hne hsep

/-- C3 (witness for the amended round-trip): on the concrete field sequence
`["a", "", "c"]` (empty interior field) the round-trip returns the input. -/
theorem C3_roundtrip_witness :
    casbin_permission_decode
        (casbin_permission_encode
          ([("a").toList, [], ("c").toList].map some)) =
      [("a").toList, [], ("c").toList] :=
  C3_roundtrip [("a").toList, [], ("c").toList] (by decide) (by decide)
    (by decide) (by decide)

/-- C10: `casbin_permission_decode` is total and always returns at least one
field; decoding the empty string or a string of only `#` characters returns
the one-element list containing the empty string. -/
theorem C10_decode_total :
    (∀ s : PyStr, 1 ≤ (casbin_permission_decode s).length) ∧
      casbin_permission_decode [] = [[]] ∧
      casbin_permission_decode (("###").toList) = [[]] :=
  ⟨fun s => pySplit_length_pos '#' (pyStrip '#' s), by decide, by decide⟩

-- ---------------------------------------------------------------------------
-- C1: page-permission reconciliation is a true set difference
-- ---------------------------------------------------------------------------

/-- C1: `casbin_update_subject_permissions` computes a true set difference:
with `old` the stored page-domain rule tuples of the subject and `news` the
desired `(subject, *decode(p), "allow")` tuples, the remove batch is
`old - news` and the add batch is `news - old` (each call skipped exactly
when its set is empty), the two batches are disjoint, and applying them
turns `old` into `news`. -/
theorem C1_page_permission_diff (store : List (List PyStr)) (subject : PyStr)
    (permissions : List PyStr) :
    let old := (store.filter
      (ruleMatches [subject, [], [], ("page").toList])).toFinset
    let news := (permissions.map fun p =>
      subject :: (casbin_permission_decode p ++ [("allow").toList])).toFinset
    let r := casbin_update_subject_permissions store subject permissions
    r.remove_call = (if old \ news = ∅ then none else some (old \ news)) ∧
      r.add_call = (if news \ old = ∅ then none else some (news \ old)) ∧
      (old \ (old \ news)) ∪ (news \ old) = news ∧
      Disjoint (old \ news) (news \ old) ∧
      r.returned = permissions := by
  intro old news r
  refine ⟨rfl, rfl, ?_, ?_, rfl⟩
  · apply Finset.ext
    intro a
    simp only [Finset.mem_union, Finset.mem_sdiff]
    tauto
  · rw [Finset.disjoint_left]
    intro a ha hb
    rw [Finset.mem_sdiff] at ha hb
    exact ha.2 hb.1

-- ---------------------------------------------------------------------------
-- C2: role reconciliation is a full replace excluding self-edges
-- ---------------------------------------------------------------------------

theorem newSubjectRoles_mem (subject role_keys : PyStr) (e : PyStr × PyStr)
    (he : e ∈ newSubjectRoles subject role_keys) :
    e.1 = subject ∧ e.2 ≠ subject := by
  unfold newSubjectRoles at he
  rw [List.mem_toFinset, List.mem_filterMap] at he
  obtain ⟨role, _, hrole⟩ := he
  by_cases hc : role ≠ [] ∧ ("r:").toList ++ role ≠ subject
  · rw [if_pos hc] at hrole
    cases hrole
    exact ⟨rfl, hc.2⟩
  · rw [if_neg hc] at hrole
    cases hrole

theorem casbin_update_subject_roles_state (state : Finset (PyStr × PyStr))
    (subject role_keys : PyStr) :
    (casbin_update_subject_roles state subject role_keys).1 =
      state.filter (fun e => e.1 ≠ subject) ∪ newSubjectRoles subject role_keys := by
  unfold casbin_update_subject_roles
  by_cases h : newSubjectRoles subject role_keys = ∅
  · simp [h]
  · simp [h]

/-- C2: `casbin_update_subject_roles` is a full replace that excludes
self-edges: after the call the subject's role edges are exactly the parsed
set (every non-empty role whose `"r:"+role` differs from the subject),
whatever they were before; other subjects' edges are untouched; the
self-edge is never present.  On the spec's concrete instances: existing
`{("u:x","r:a"), ("u:x","r:b")}` with desired `"b,c"` yields exactly
`{("u:x","r:b"), ("u:x","r:c")}`, and subject `"r:admin"` with desired
roles containing `"admin"` excludes the self-edge. -/
theorem C2_role_full_replace :
    (∀ (state : Finset (PyStr × PyStr)) (subject role_keys : PyStr),
      (casbin_update_subject_roles state subject role_keys).1.filter
          (fun e => e.1 = subject) =
        newSubjectRoles subject role_keys ∧
      (casbin_update_subject_roles state subject role_keys).1.filter
          (fun e => e.1 ≠ subject) =
        state.filter (fun e => e.1 ≠ subject) ∧
      (subject, subject) ∉ (casbin_update_subject_roles state subject role_keys).1) ∧
    (casbin_update_subject_roles
        {(("u:x").toList, ("r:a").toList), (("u:x").toList, ("r:b").toList)}
        ("u:x").toList ("b,c").toList).1 =
      {(("u:x").toList, ("r:b").toList), (("u:x").toList, ("r:c").toList)} ∧
    (("r:admin").toList, ("r:admin").toList) ∉
      (casbin_update_subject_roles ∅ ("r:admin").toList
        ("admin,other").toList).1 := by
  refine ⟨?_, by decide, by decide⟩
  intro state subject role_keys
  rw [casbin_update_subject_roles_state]
  refine ⟨?_, ?_, ?_⟩
  · apply Finset.ext
    intro e
    simp only [Finset.mem_filter, Finset.mem_union]
    constructor
    · rintro ⟨he | he, h1⟩
      · exact absurd h1 he.2
      · exact he
    · intro he
      exact ⟨Or.inr he, (newSubjectRoles_mem subject role_keys e he).1⟩
  · apply Finset.ext
    intro e
    simp only [Finset.mem_filter, Finset.mem_union]
    constructor
    · rintro ⟨he | he, h1⟩
      · exact he
      · exact absurd (newSubjectRoles_mem subject role_keys e he).1 h1
    · intro he
      exact ⟨Or.inl he, he.2⟩
  · intro hmem
    rw [Finset.mem_union] at hmem
    cases hmem with
    | inl h =>
      rw [Finset.mem_filter] at h
      exact h.2 rfl
    | inr h =>
      exact (newSubjectRoles_mem subject role_keys _ h).2 rfl

-- ---------------------------------------------------------------------------
-- C7: hierarchy synchronizer
-- ---------------------------------------------------------------------------

theorem get_admin_grouping_eq_map : ∀ (l : List Admin),
    get_admin_grouping l =
      (groupingNodes l).map (fun a => (Admin.appId a, Admin.uniqueId a))
  | [] => by simp [get_admin_grouping, groupingNodes]
  | a :: rest => by
    have hrest := get_admin_grouping_eq_map rest
    cases a with
    | page u sch b i =>
      by_cases h : b = true <;>
        simp [get_admin_grouping, groupingNodes, Admin.appSelf, Admin.appId,
          Admin.uniqueId, h, hrest]
    | modelA u sch b i acts =>
      by_cases h : b = true <;>
        simp [get_admin_grouping, groupingNodes, Admin.appSelf, Admin.appId,
          Admin.uniqueId, h, hrest]
    | formA u sch b i acts =>
      by_cases h : b = true <;>
        simp [get_admin_grouping, groupingNodes, Admin.appSelf, Admin.appId,
          Admin.uniqueId, h, hrest]
    | actionA u sch b i acts =>
      by_cases h : b = true <;>
        simp [get_admin_grouping, groupingNodes, Admin.appSelf, Admin.appId,
          Admin.uniqueId, h, hrest]
    | group u sch b i cs =>
      have hcs := get_admin_grouping_eq_map cs
      by_cases h : b = true <;>
        simp [get_admin_grouping, groupingNodes, Admin.appSelf, Admin.appId,
          Admin.uniqueId, h, hrest, hcs]

/-- C7: `get_admin_grouping` contributes, in traversal order, exactly the
edge `(owning-application-id, node-id)` for every visited node that is not
its own owning application (such nodes are skipped, sub-groups recursed),
and `casbin_update_site_grouping` issues a true incremental diff against
the fetched `g2` edges: remove batch `existing - derived`, add batch
`derived - existing`, each call only when non-empty, the batches disjoint,
and applying them turns the existing edge set into the derived one. -/
theorem C7_site_grouping_sync (fetched : List (PyStr × PyStr))
    (site : List Admin) :
    let old := fetched.toFinset
    let news := (get_admin_grouping site).toFinset
    let r := casbin_update_site_grouping fetched site
    get_admin_grouping site =
      (groupingNodes site).map (fun a => (Admin.appId a, Admin.uniqueId a)) ∧
      r.remove_call = (if old \ news = ∅ then none else some (old \ news)) ∧
      r.add_call = (if news \ old = ∅ then none else some (news \ old)) ∧
      (old \ (old \ news)) ∪ (news \ old) = news ∧
      Disjoint (old \ news) (news \ old) := by
  intro old news r
  refine ⟨get_admin_grouping_eq_map site, rfl, rfl, ?_, ?_⟩
  · apply Finset.ext
    intro a
    simp only [Finset.mem_union, Finset.mem_sdiff]
    tauto
  · rw [Finset.disjoint_left]
    intro a ha hb
    rw [Finset.mem_sdiff] at ha hb
    exact ha.2 hb.1

-- ---------------------------------------------------------------------------
-- C4: filter_options preserves order and keeps emptied nodes
-- ---------------------------------------------------------------------------

theorem filter_options_eq_filter_map (f : MenuOption → Bool) :
    ∀ (l : List MenuOption),
      filter_options f l = (l.filter f).map (refineNode f)
  | [] => by simp [filter_options]
  | .mk lb v s c :: rest => by
    rw [filter_options]
    by_cases h : f (.mk lb v s c) = true
    · rw [if_pos h, filter_options_eq_filter_map f rest,
        List.filter_cons_of_pos h]
      rw [List.map_cons]
      congr 1
      unfold refineNode
      by_cases hc : c = []
      · subst hc
        simp [filter_options]
      · rw [if_neg (by simpa using hc)]
    · rw [if_neg h, filter_options_eq_filter_map f rest,
        List.filter_cons_of_neg (by simpa using h)]

theorem topData_refineNode (f : MenuOption → Bool) (o : MenuOption) :
    topData (refineNode f o) = topData o := by
  cases o
  rfl

/-- C4: `filter_options` returns, in original order, exactly the options
passing the predicate, each with its children recursively filtered: the
result is the filtered subsequence mapped through child-refinement, its
label/value/sort data is a subsequence of the input's, and a passing node
is retained even when its (filtered) children list is empty. -/
theorem C4_filter_order_retention (f : MenuOption → Bool)
    (l : List MenuOption) :
    filter_options f l = (l.filter f).map (refineNode f) ∧
      List.Sublist ((filter_options f l).map topData) (l.map topData) ∧
      (∀ o ∈ l, f o = true → refineNode f o ∈ filter_options f l) := by
  refine ⟨filter_options_eq_filter_map f l, ?_, ?_⟩
  · rw [filter_options_eq_filter_map f l, List.map_map]
    have : topData ∘ refineNode f = topData := by
      funext o
      exact topData_refineNode f o
    rw [this]
    exact List.Sublist.map topData (List.filter_sublist l)
  · intro o ho hf
    rw [filter_options_eq_filter_map f l]
    exact List.mem_map_of_mem (refineNode f) (List.mem_filter_of_mem ho hf)

-- ---------------------------------------------------------------------------
-- C9: root bypass in get_admin_action_options_by_subject
-- ---------------------------------------------------------------------------

/-- C9: `get_admin_action_options_by_subject` returns the complete option
tree without consulting the enforcer at all (the result is the full tree
and is independent of the enforce function) exactly when the subject is
`"u:" + ROOT`; for any other subject it filters the tree through
`casbin_permission_enforce` per node. -/
theorem C9_root_bypass (ROOT subject : PyStr) (g : List Admin) :
    (subject = ("u:").toList ++ ROOT →
      ∀ e₁ e₂ : PyStr → List PyStr → Bool,
        get_admin_action_options_by_subject ROOT e₁ subject g =
            get_admin_action_options g ∧
          get_admin_action_options_by_subject ROOT e₁ subject g =
            get_admin_action_options_by_subject ROOT e₂ subject g) ∧
      (subject ≠ ("u:").toList ++ ROOT →
        ∀ e : PyStr → List PyStr → Bool,
          get_admin_action_options_by_subject ROOT e subject g =
            filter_options
              (fun item => casbin_permission_enforce e subject item.value)
              (get_admin_action_options g)) := by
  constructor
  · intro h e₁ e₂
    constructor
    · simp only [get_admin_action_options_by_subject]
      rw [if_neg (by simp [h])]
    · simp only [get_admin_action_options_by_subject]
      rw [if_neg (by simp [h]), if_neg (by simp [h])]
  · intro h e
    simp only [get_admin_action_options_by_subject]
    rw [if_pos h]

/-- C9 (witness): with root user name `"root"`, subject `"u:root"` and an
enforce function that denies everything, the returned tree is still the
full capability tree. -/
theorem C9_root_bypass_witness :
    get_admin_action_options_by_subject ("root").toList (fun _ _ => false)
        ("u:root").toList [] =
      get_admin_action_options [] :=
  ((C9_root_bypass ("root").toList ("u:root").toList []).1 (by decide)
    (fun _ _ => false) (fun _ _ => true)).1

-- ---------------------------------------------------------------------------
-- C5: field policy matrix completeness
-- ---------------------------------------------------------------------------

theorem buildRowsTriple_eq (allowR denyR : Finset PyStr) :
    ∀ (rows : List FieldRow),
      buildRowsTriple allowR denyR rows =
        (rows.map fun row =>
          rowItem row (decide (row.rol ∉ allowR ∧ row.rol ∉ denyR)),
         rows.map fun row => rowItem row (decide (row.rol ∈ allowR)),
         rows.map fun row =>
          rowItem row (decide (row.rol ∉ allowR ∧ row.rol ∈ denyR)))
  | [] => rfl
  | row :: rest => by
    rw [buildRowsTriple, buildRowsTriple_eq allowR denyR rest]
    by_cases ha : row.rol ∈ allowR
    · simp [ha]
    · by_cases hd : row.rol ∈ denyR
      · simp [ha, hd]
      · simp [ha, hd]

theorem checkedSum_map (A D : Finset PyStr) :
    ∀ (rows : List FieldRow), (∀ row ∈ rows, row.checked = none) →
      ∀ i : Nat,
        (((rows.map fun row =>
            rowItem row (decide (row.rol ∉ A ∧ row.rol ∉ D))).getD i
              ⟨[], false⟩).checked).toNat +
          (((rows.map fun row =>
              rowItem row (decide (row.rol ∈ A))).getD i
                ⟨[], false⟩).checked).toNat +
          (((rows.map fun row =>
              rowItem row (decide (row.rol ∉ A ∧ row.rol ∈ D))).getD i
                ⟨[], false⟩).checked).toNat =
          if i < rows.length then 1 else 0
  | [], _, i => by simp
  | row :: rest, h, 0 => by
    have hc := h row (List.mem_cons_self _ _)
    simp only [List.map_cons, List.getD_cons_zero, rowItem, hc,
      Option.getD_none, List.length_cons]
    by_cases ha : row.rol ∈ A
    · simp [ha]
    · by_cases hd : row.rol ∈ D
      · simp [ha, hd]
      · simp [ha, hd]
  | row :: rest, h, i + 1 => by
    simp only [List.map_cons, List.getD_cons_succ, List.length_cons]
    rw [checkedSum_map A D rest (fun r hr => h r (List.mem_cons_of_mem _ hr)) i]
    simp [Nat.succ_lt_succ_iff]

/-- C5 (amended): provided no input row already carries a `"checked"` key,
`casbin_get_subject_field_policy_matrix` (on a well-formed store and a
3-field permission) returns three sequences of exactly N rows, and at each
index exactly one of the three rows has `checked=true` — the allow row when
the row's key is in the stored allow set, else the deny row when it is in
the stored deny set, else the default row.  (A pre-existing `"checked"`
value in a row overrides the computed flag in all three outputs, so the
exactly-one property can fail for such rows; see the counterexample.) -/
theorem C5_field_matrix (store : List (List PyStr))
    (subject permission : PyStr) (rows : List FieldRow) (v1 v2 v3 : PyStr)
    (hdec : casbin_permission_decode permission = [v1, v2, v3])
    (hstore : ∀ r ∈ store, r ≠ [])
    (hrows : ∀ row ∈ rows, row.checked = none) :
    let rules := fieldPolicyFilteredRules store subject v1
      (pyReplace ("admin:").toList ("page:").toList v2)
    let A := fieldAllowSet rules
    let D := fieldDenySet rules
    ∃ d a dn,
      casbin_get_subject_field_policy_matrix store subject permission rows =
          some (d, a, dn) ∧
        d.length = rows.length ∧ a.length = rows.length ∧
        dn.length = rows.length ∧
        d = (rows.map fun row =>
          { rol := row.rol, checked := decide (row.rol ∉ A ∧ row.rol ∉ D) }) ∧
        a = (rows.map fun row =>
          { rol := row.rol, checked := decide (row.rol ∈ A) }) ∧
        dn = (rows.map fun row =>
          { rol := row.rol, checked := decide (row.rol ∉ A ∧ row.rol ∈ D) }) ∧
        ∀ i : Nat,
          ((d.getD i ⟨[], false⟩).checked).toNat +
              ((a.getD i ⟨[], false⟩).checked).toNat +
              ((dn.getD i ⟨[], false⟩).checked).toNat =
            if i < rows.length then 1 else 0 := by
  intro rules A D
  have hany : ¬(rules.any fun r => r.isEmpty) = true := by
    intro hx
    rw [List.any_eq_true] at hx
    obtain ⟨r, hr, hre⟩ := hx
    have hrs : r ∈ store := List.mem_of_mem_filter hr
    exact hstore r hrs (List.isEmpty_iff.mp hre)
  have hmat : casbin_get_subject_field_policy_matrix store subject
      permission rows = some (buildRowsTriple A D rows) := by
    unfold casbin_get_subject_field_policy_matrix
    rw [hdec]
    dsimp only
    rw [if_neg hany]
  rw [buildRowsTriple_eq] at hmat
  have hmap : ∀ (b : FieldRow → Bool),
      (rows.map fun row => rowItem row (b row)) =
        (rows.map fun row => ({ rol := row.rol, checked := b row } : FieldItem)) := by
    intro b
    apply List.map_congr_left
    intro row hrow
    simp [rowItem, hrows row hrow]
  refine ⟨_, _, _, hmat, by simp, by simp, by simp, ?_, ?_, ?_, ?_⟩
  · rw [hmap]
  · rw [hmap]
  · rw [hmap]
  · exact checkedSum_map A D rows hrows

/-- C5 (witness for the amended theorem): one stored allow rule, one clean
row — the matrix call succeeds with one row per output sequence. -/
theorem C5_field_matrix_witness :
    ∃ d a dn,
      casbin_get_subject_field_policy_matrix
          [[("s").toList, ("a").toList, ("b").toList, ("f").toList,
            ("allow").toList]]
          ("s").toList ("a#b#c").toList [⟨("x").toList, none⟩] =
          some (d, a, dn) ∧
        d.length = 1 ∧ a.length = 1 ∧ dn.length = 1 := by
  obtain ⟨d, a, dn, h1, h2, h3, h4, _⟩ :=
    C5_field_matrix
      [[("s").toList, ("a").toList, ("b").toList, ("f").toList,
        ("allow").toList]]
      ("s").toList ("a#b#c").toList [⟨("x").toList, none⟩]
      ("a").toList ("b").toList ("c").toList
      (by decide) (by decide) (by decide)
  exact ⟨d, a, dn, h1, h2, h3, h4⟩

/-- C5 (counterexample): a row that already carries `"checked": True` makes
all three output rows checked (Python's `{"checked": False, **row}` lets the
row's own `"checked"` key win), so "exactly one of the three rows has
checked=true" fails for such inputs. -/
theorem C5_field_matrix_counterexample :
    casbin_get_subject_field_policy_matrix [] ("s").toList ("a#b#c").toList
        [⟨("x").toList, some true⟩] =
      some ([⟨("x").toList, true⟩], [⟨("x").toList, true⟩],
        [⟨("x").toList, true⟩]) ∧
    ¬((([(⟨("x").toList, true⟩ : FieldItem)].getD 0 ⟨[], false⟩).checked).toNat +
        (([(⟨("x").toList, true⟩ : FieldItem)].getD 0 ⟨[], false⟩).checked).toNat +
        (([(⟨("x").toList, true⟩ : FieldItem)].getD 0 ⟨[], false⟩).checked).toNat =
      1) := by
  constructor
  · decide
  · decide

-- ---------------------------------------------------------------------------
-- C6: sibling ordering of the capability tree
-- ---------------------------------------------------------------------------

theorem insertDescMenu_perm (x : MenuOption) :
    ∀ (l : List MenuOption), (insertDescMenu x l).Perm (x :: l)
  | [] => List.Perm.refl _
  | y :: ys => by
    rw [insertDescMenu]
    by_cases hle : sortKey y ≤ sortKey x
    · rw [if_pos hle]
    · rw [if_neg hle]
      exact (List.Perm.cons y (insertDescMenu_perm x ys)).trans
        (List.Perm.swap x y ys)

theorem pySortDesc_perm : ∀ (l : List MenuOption), (pySortDesc l).Perm l
  | [] => List.Perm.refl _
  | x :: xs => by
    rw [pySortDesc]
    exact (insertDescMenu_perm x (pySortDesc xs)).trans
      (List.Perm.cons x (pySortDesc_perm xs))

theorem pairwise_insertDescMenu (x : MenuOption) :
    ∀ (l : List MenuOption),
      l.Pairwise (fun a b => sortKey b ≤ sortKey a) →
      (insertDescMenu x l).Pairwise (fun a b => sortKey b ≤ sortKey a)
  | [], _ => by simp [insertDescMenu]
  | y :: ys, h => by
    rw [List.pairwise_cons] at h
    rw [insertDescMenu]
    by_cases hle : sortKey y ≤ sortKey x
    · rw [if_pos hle, List.pairwise_cons]
      refine ⟨?_, List.pairwise_cons.mpr h⟩
      intro b hb
      rcases List.mem_cons.mp hb with rfl | hb
      · exact hle
      · exact le_trans (h.1 b hb) hle
    · rw [if_neg hle, List.pairwise_cons]
      refine ⟨?_, pairwise_insertDescMenu x ys h.2⟩
      intro b hb
      have hmem : b ∈ x :: ys := (insertDescMenu_perm x ys).mem_iff.mp hb
      rcases List.mem_cons.mp hmem with rfl | hb2
      · exact le_of_not_le hle
      · exact h.1 b hb2

theorem descByKey_iff_pairwise :
    ∀ (l : List MenuOption),
      descByKey l = true ↔ l.Pairwise (fun a b => sortKey b ≤ sortKey a)
  | [] => by simp [descByKey]
  | [x] => by simp [descByKey]
  | x :: y :: rest => by
    rw [descByKey, Bool.and_eq_true, decide_eq_true_iff,
      descByKey_iff_pairwise (y :: rest)]
    constructor
    · rintro ⟨hxy, hp⟩
      rw [List.pairwise_cons]
      refine ⟨?_, hp⟩
      intro b hb
      rcases List.mem_cons.mp hb with rfl | hb
      · exact hxy
      · rw [List.pairwise_cons] at hp
        exact le_trans (hp.1 b hb) hxy
    · intro hp
      rw [List.pairwise_cons] at hp
      exact ⟨hp.1 y (List.mem_cons_self _ _), List.pairwise_cons.mpr
        ⟨fun b hb => (List.pairwise_cons.mp hp.2).1 b hb,
          (List.pairwise_cons.mp hp.2).2⟩⟩

theorem descByKey_pySortDesc : ∀ (l : List MenuOption),
    descByKey (pySortDesc l) = true
  | [] => rfl
  | x :: xs => by
    rw [pySortDesc, descByKey_iff_pairwise]
    exact pairwise_insertDescMenu x _
      ((descByKey_iff_pairwise _).mp (descByKey_pySortDesc xs))

theorem filter_insertDescMenu (x : MenuOption) (k : Int) :
    ∀ (l : List MenuOption),
      (insertDescMenu x l).filter (fun o => decide (sortKey o = k)) =
        (x :: l).filter (fun o => decide (sortKey o = k))
  | [] => rfl
  | y :: ys => by
    rw [insertDescMenu]
    by_cases hle : sortKey y ≤ sortKey x
    · rw [if_pos hle]
    · rw [if_neg hle]
      have ih := filter_insertDescMenu x k ys
      by_cases hx : sortKey x = k <;> by_cases hy : sortKey y = k
      · exact absurd (le_of_eq (hy.trans hx.symm)) hle
      · simp [List.filter_cons, hx, hy, ih]
      · simp [List.filter_cons, hx, hy, ih]
      · simp [List.filter_cons, hx, hy, ih]

theorem filter_pySortDesc (k : Int) : ∀ (l : List MenuOption),
    (pySortDesc l).filter (fun o => decide (sortKey o = k)) =
      l.filter (fun o => decide (sortKey o = k))
  | [] => rfl
  | x :: xs => by
    rw [pySortDesc, filter_insertDescMenu x k (pySortDesc xs)]
    simp [List.filter_cons, filter_pySortDesc k xs]

theorem pySortDesc_of_const : ∀ (l : List MenuOption),
    (∀ o ∈ l, sortKey o = 0) → pySortDesc l = l
  | [], _ => rfl
  | x :: xs, h => by
    rw [pySortDesc,
      pySortDesc_of_const xs (fun o ho => h o (List.mem_cons_of_mem _ ho))]
    cases xs with
    | nil => rfl
    | cons y ys =>
      have hy0 : sortKey y = 0 := h y (by simp)
      have hx0 : sortKey x = 0 := h x (by simp)
      rw [insertDescMenu, if_pos (by rw [hy0, hx0])]

theorem descByKey_of_const : ∀ (l : List MenuOption),
    (∀ o ∈ l, sortKey o = 0) → descByKey l = true
  | [], _ => rfl
  | [_], _ => rfl
  | x :: y :: rest, h => by
    have hx0 : sortKey x = 0 := h x (by simp)
    have hy0 : sortKey y = 0 := h y (by simp)
    rw [descByKey, hx0, hy0,
      descByKey_of_const (y :: rest) (fun o ho => h o (List.mem_cons_of_mem _ ho))]
    simp

theorem sortKey_actionItems (u : PyStr) :
    ∀ (acts : List (PyStr × PyStr)), ∀ o ∈ actionItems u acts, sortKey o = 0
  | [], o, ho => by simp [actionItems] at ho
  | (n, lb) :: rest, o, ho => by
    rw [actionItems] at ho
    rcases List.mem_cons.mp ho with rfl | ho2
    · rfl
    · exact sortKey_actionItems u rest o ho2

theorem sortKey_modelChildren (u : PyStr) (acts : List (PyStr × PyStr)) :
    ∀ o ∈ modelChildren u acts, sortKey o = 0 := by
  intro o ho
  rw [modelChildren] at ho
  rcases List.mem_cons.mp ho with rfl | ho2
  · rfl
  · rcases List.mem_cons.mp ho2 with rfl | ho3
    · rfl
    · exact sortKey_actionItems u acts o ho3

theorem sortKey_formChildren (u : PyStr) (acts : List (PyStr × PyStr)) :
    ∀ o ∈ formChildren u acts, sortKey o = 0 := by
  intro o ho
  rw [formChildren] at ho
  rcases List.mem_append.mp ho with ho2 | ho3
  · by_cases hsub : ("submit").toList ∈ acts.map Prod.fst
    · rw [if_pos hsub] at ho2
      simp at ho2
    · rw [if_neg hsub] at ho2
      rcases List.mem_singleton.mp ho2 with rfl
      rfl
  · exact sortKey_actionItems u acts o ho3

theorem sortEach_actionItems (u : PyStr) :
    ∀ (acts : List (PyStr × PyStr)),
      sortEach (actionItems u acts) = actionItems u acts
  | [] => by simp [sortEach, actionItems]
  | (n, lb) :: rest => by
    rw [actionItems, sortEach, sortEach_actionItems u rest]
    simp [sortEach, pySortDesc]

theorem sortEach_modelChildren (u : PyStr) (acts : List (PyStr × PyStr)) :
    sortEach (modelChildren u acts) = modelChildren u acts := by
  rw [modelChildren]
  simp only [sortEach, sortEach_actionItems u acts, pySortDesc]

theorem sortEach_formChildren (u : PyStr) (acts : List (PyStr × PyStr)) :
    sortEach (formChildren u acts) = formChildren u acts := by
  rw [formChildren]
  by_cases hsub : ("submit").toList ∈ acts.map Prod.fst
  · rw [if_pos hsub]
    simpa using sortEach_actionItems u acts
  · rw [if_neg hsub]
    simp only [List.singleton_append]
    simp only [sortEach, sortEach_actionItems u acts, pySortDesc]

theorem pySortDesc_modelChildren (u : PyStr) (acts : List (PyStr × PyStr)) :
    pySortDesc (modelChildren u acts) = modelChildren u acts :=
  pySortDesc_of_const _ (sortKey_modelChildren u acts)

theorem pySortDesc_formChildren (u : PyStr) (acts : List (PyStr × PyStr)) :
    pySortDesc (formChildren u acts) = formChildren u acts :=
  pySortDesc_of_const _ (sortKey_formChildren u acts)

theorem pySortDesc_actionItems (u : PyStr) (acts : List (PyStr × PyStr)) :
    pySortDesc (actionItems u acts) = actionItems u acts :=
  pySortDesc_of_const _ (sortKey_actionItems u acts)

theorem forestOK_eq_all : ∀ (l : List MenuOption), forestOK l = l.all nodeOK
  | [] => by simp [forestOK]
  | o :: rest => by simp [forestOK, forestOK_eq_all rest]

theorem all_congr_perm {α : Type} (p : α → Bool) (l₁ l₂ : List α)
    (h : l₁.Perm l₂) : l₁.all p = l₂.all p := by
  have hiff : l₁.all p = true ↔ l₂.all p = true := by
    rw [List.all_eq_true, List.all_eq_true]
    constructor
    · intro ha x hx
      exact ha x (h.mem_iff.mpr hx)
    · intro ha x hx
      exact ha x (h.mem_iff.mp hx)
  cases h1 : l₁.all p
  · cases h2 : l₂.all p
    · rfl
    · have hx := hiff.mpr h2
      rw [h1] at hx
      exact absurd hx (by decide)
  · cases h2 : l₂.all p
    · have hx := hiff.mp h1
      rw [h2] at hx
      exact absurd hx (by decide)
    · rfl

theorem forestOK_perm (l₁ l₂ : List MenuOption) (h : l₁.Perm l₂) :
    forestOK l₁ = forestOK l₂ := by
  rw [forestOK_eq_all, forestOK_eq_all]
  exact all_congr_perm nodeOK l₁ l₂ h

theorem forestOK_actionItems (u : PyStr) :
    ∀ (acts : List (PyStr × PyStr)), forestOK (actionItems u acts) = true
  | [] => by simp [forestOK, actionItems]
  | (n, lb) :: rest => by
    simp [actionItems, forestOK, nodeOK, descByKey, forestOK_actionItems u rest]

theorem forestOK_modelChildren (u : PyStr) (acts : List (PyStr × PyStr)) :
    forestOK (modelChildren u acts) = true := by
  simp [modelChildren, forestOK, nodeOK, descByKey, forestOK_actionItems u acts]

theorem forestOK_formChildren (u : PyStr) (acts : List (PyStr × PyStr)) :
    forestOK (formChildren u acts) = true := by
  rw [formChildren]
  by_cases hsub : ("submit").toList ∈ acts.map Prod.fst
  · rw [if_pos hsub]
    simpa using forestOK_actionItems u acts
  · rw [if_neg hsub]
    simp [forestOK, nodeOK, descByKey, forestOK_actionItems u acts]

theorem buildItems_eq_sortEach : ∀ (g : List Admin),
    buildItems g = sortEach (buildUnsorted g)
  | [] => by simp [buildItems, buildUnsorted, sortEach]
  | a :: rest => by
    have ih := buildItems_eq_sortEach rest
    cases a with
    | page u sch b i =>
      cases sch with
      | none => simpa only [buildItems, buildUnsorted] using ih
      | some ps => simp only [buildItems, buildUnsorted, sortEach, pySortDesc, ih]
    | modelA u sch b i acts =>
      cases sch with
      | none => simpa only [buildItems, buildUnsorted] using ih
      | some ps =>
        simp only [buildItems, buildUnsorted, sortEach, ih,
          sortEach_modelChildren u acts, pySortDesc_modelChildren u acts]
    | formA u sch b i acts =>
      cases sch with
      | none => simpa only [buildItems, buildUnsorted] using ih
      | some ps =>
        simp only [buildItems, buildUnsorted, sortEach, ih,
          sortEach_formChildren u acts, pySortDesc_formChildren u acts]
    | actionA u sch b i acts =>
      cases sch with
      | none => simpa only [buildItems, buildUnsorted] using ih
      | some ps =>
        simp only [buildItems, buildUnsorted, sortEach, ih,
          sortEach_actionItems u acts, pySortDesc_actionItems u acts]
    | group u sch b i cs =>
      cases sch with
      | none => simpa only [buildItems, buildUnsorted] using ih
      | some ps =>
        have ihc := buildItems_eq_sortEach cs
        simp only [buildItems, buildUnsorted, sortEach, ih,
          get_admin_action_options, ihc]

theorem forestOK_buildItems : ∀ (g : List Admin),
    forestOK (buildItems g) = true
  | [] => by simp [buildItems, forestOK]
  | a :: rest => by
    have ih := forestOK_buildItems rest
    cases a with
    | page u sch b i =>
      cases sch with
      | none => simpa only [buildItems] using ih
      | some ps =>
        simp only [buildItems, forestOK, nodeOK, Bool.and_eq_true]
        exact ⟨⟨by simp [descByKey], by simp [forestOK]⟩, ih⟩
    | modelA u sch b i acts =>
      cases sch with
      | none => simpa only [buildItems] using ih
      | some ps =>
        simp only [buildItems, forestOK, nodeOK, Bool.and_eq_true]
        refine ⟨⟨descByKey_of_const _ (sortKey_modelChildren u acts), ?_⟩, ih⟩
        have hfa := forestOK_modelChildren u acts
        simp only [forestOK, nodeOK, Bool.and_eq_true, modelChildren,
          List.append_eq] at hfa ⊢
        simp_all
    | formA u sch b i acts =>
      cases sch with
      | none => simpa only [buildItems] using ih
      | some ps =>
        simp only [buildItems, forestOK, nodeOK, Bool.and_eq_true]
        refine ⟨⟨descByKey_of_const _ (sortKey_formChildren u acts), ?_⟩, ih⟩
        have hfa := forestOK_formChildren u acts
        simp only [forestOK, nodeOK, Bool.and_eq_true, formChildren,
          List.append_eq] at hfa ⊢
        simp_all
    | actionA u sch b i acts =>
      cases sch with
      | none => simpa only [buildItems] using ih
      | some ps =>
        simp only [buildItems, forestOK, nodeOK, Bool.and_eq_true]
        refine ⟨⟨descByKey_of_const _ (sortKey_actionItems u acts), ?_⟩, ih⟩
        have hfa := forestOK_actionItems u acts
        simp only [forestOK, nodeOK, Bool.and_eq_true, actionItems,
          List.append_eq] at hfa ⊢
        simp_all
    | group u sch b i cs =>
      cases sch with
      | none => simpa only [buildItems] using ih
      | some ps =>
        have ihc := forestOK_buildItems cs
        have h1 : descByKey (get_admin_action_options cs) = true := by
          rw [get_admin_action_options]
          exact descByKey_pySortDesc _
        have h2 : forestOK (get_admin_action_options cs) = true := by
          rw [get_admin_action_options, forestOK_perm _ _ (pySortDesc_perm _)]
          exact ihc
        simp only [buildItems, forestOK, nodeOK, Bool.and_eq_true]
        exact ⟨⟨h1, h2⟩, ih⟩

/-- C6: in the tree built by `get_admin_action_options`, every sibling list
is sorted by its sort key (`sort or 0`, missing sort treated as 0)
descending, and the sort is stable: the tree equals the unsorted traversal
with every sibling level stably sorted, where the modelled sort is a
permutation that preserves the relative order of equal-key elements
(`filter` by any key value is unchanged). -/
theorem C6_sibling_sort (g : List Admin) :
    descByKey (get_admin_action_options g) = true ∧
      forestOK (get_admin_action_options g) = true ∧
      get_admin_action_options g = sortTree (buildUnsorted g) ∧
      (∀ l : List MenuOption, (pySortDesc l).Perm l) ∧
      (∀ (l : List MenuOption) (k : Int),
        (pySortDesc l).filter (fun o => decide (sortKey o = k)) =
          l.filter (fun o => decide (sortKey o = k))) := by
  refine ⟨?_, ?_, ?_, pySortDesc_perm, fun l k => filter_pySortDesc k l⟩
  · rw [get_admin_action_options]
    exact descByKey_pySortDesc _
  · rw [get_admin_action_options, forestOK_perm _ _ (pySortDesc_perm _)]
    exact forestOK_buildItems g
  · rw [get_admin_action_options, sortTree, buildItems_eq_sortEach g]

-- ---------------------------------------------------------------------------
-- C8: filter_options and object sharing
-- ---------------------------------------------------------------------------

theorem filter_optionsH_fresh (f : HNode → Bool) :
    ∀ (ctr : Nat) (l : List HNode), hNoEmptyChildList l = true →
      ctr ≤ (filter_optionsH f ctr l).1 ∧
      ∀ a ∈ hAddrsList (filter_optionsH f ctr l).2,
        ctr ≤ a ∧ a < (filter_optionsH f ctr l).1
  | _ctr, [], _ => by simp [filter_optionsH, hAddrsList]
  | ctr, .mk a0 lb v s none :: rest, h => by
    have hh : hNoEmptyChild (.mk a0 lb v s none) = true ∧
        hNoEmptyChildList rest = true := by
      rw [hNoEmptyChildList, Bool.and_eq_true] at h
      exact h
    by_cases hf : f (.mk a0 lb v s none) = true
    · obtain ⟨ih1, ih2⟩ := filter_optionsH_fresh f (ctr + 1) rest hh.2
      rw [filter_optionsH, if_pos hf]
      dsimp only
      constructor
      · omega
      · intro a ha
        rw [hAddrsList] at ha
        rcases List.mem_append.mp ha with ha1 | ha2
        · rw [hAddrs] at ha1
          rcases List.mem_singleton.mp ha1 with rfl
          omega
        · have := ih2 a ha2
          omega
    · obtain ⟨ih1, ih2⟩ := filter_optionsH_fresh f ctr rest hh.2
      rw [filter_optionsH, if_neg hf]
      exact ⟨ih1, ih2⟩
  | ctr, .mk a0 lb v s (some (la, kids)) :: rest, h => by
    have hh : hNoEmptyChild (.mk a0 lb v s (some (la, kids))) = true ∧
        hNoEmptyChildList rest = true := by
      rw [hNoEmptyChildList, Bool.and_eq_true] at h
      exact h
    have hkids : kids.isEmpty = false ∧ hNoEmptyChildList kids = true := by
      have hx := hh.1
      rw [hNoEmptyChild, Bool.and_eq_true, Bool.not_eq_true'] at hx
      exact hx
    by_cases hf : f (.mk a0 lb v s (some (la, kids))) = true
    · obtain ⟨ihk1, ihk2⟩ := filter_optionsH_fresh f (ctr + 1) kids hkids.2
      obtain ⟨ihr1, ihr2⟩ :=
        filter_optionsH_fresh f ((filter_optionsH f (ctr + 1) kids).1 + 1)
          rest hh.2
      rw [filter_optionsH, if_pos hf]
      simp only [hkids.1, Bool.false_eq_true, if_false]
      constructor
      · omega
      · intro a ha
        rw [hAddrsList] at ha
        rcases List.mem_append.mp ha with ha1 | ha2
        · rw [hAddrs] at ha1
          rcases List.mem_cons.mp ha1 with rfl | ha3
          · omega
          · rcases List.mem_cons.mp ha3 with rfl | ha4
            · omega
            · have := ihk2 a ha4
              omega
        · have := ihr2 a ha2
          omega
    · obtain ⟨ih1, ih2⟩ := filter_optionsH_fresh f ctr rest hh.2
      rw [filter_optionsH, if_neg hf]
      exact ⟨ih1, ih2⟩
termination_by ctr l _ => sizeOf l
decreasing_by
  all_goals simp_arith

/-- C8 (counterexample): `filter_options` is not copy-on-write: `copy` is a
shallow dict copy, and for a retained node whose `children` value is an
empty (falsy) list the returned node keeps the very same list object, so
mutating the returned tree's children list mutates the input tree.  Input:
one node, dict identity 0, children list identity 1, empty children list;
allocator fresh from 2; predicate keeps everything.  The output shares
identity 1 with the input. -/
theorem C8_copy_on_write_counterexample :
    (∀ a ∈ hAddrsList [HNode.mk 0 [] [] none (some (1, []))], a < 2) ∧
      (filter_optionsH (fun _ => true) 2
          [HNode.mk 0 [] [] none (some (1, []))]).2 =
        [HNode.mk 2 [] [] none (some (1, []))] ∧
      1 ∈ hAddrsList ((filter_optionsH (fun _ => true) 2
          [HNode.mk 0 [] [] none (some (1, []))]).2) ∧
      1 ∈ hAddrsList [HNode.mk 0 [] [] none (some (1, []))] := by
  refine ⟨?_, ?_, ?_, ?_⟩
  · intro a ha
    simp only [hAddrsList, hAddrs, List.append_nil] at ha
    rcases List.mem_cons.mp ha with rfl | ha2
    · omega
    · rcases List.mem_singleton.mp ha2 with rfl
      omega
  · simp [filter_optionsH, hAddrsList, hAddrs]
  · simp [filter_optionsH, hAddrsList, hAddrs]
  · simp [hAddrsList, hAddrs]

/-- C8 (amended): `filter_options` is copy-on-write except for empty
children lists: when no input node holds a present-but-empty `children`
list and the allocator is fresh, every mutable object identity in the
returned tree (node dicts and children lists) is freshly allocated, so no
mutation of the returned tree can affect the input tree.  (A retained
node's empty `children` list object is shared with the input — see the
counterexample.) -/
theorem C8_copy_on_write (f : HNode → Bool) (ctr : Nat) (l : List HNode)
    (hne : hNoEmptyChildList l = true)
    (hfresh : ∀ a ∈ hAddrsList l, a < ctr) :
    ∀ a ∈ hAddrsList (filter_optionsH f ctr l).2, a ∉ hAddrsList l := by
  intro a ha hmem
  obtain ⟨-, h2⟩ := filter_optionsH_fresh f ctr l hne
  obtain ⟨hge, -⟩ := h2 a ha
  exact absurd (hfresh a hmem) (not_lt.mpr hge)

/-- C8 (witness for the amended theorem): a single node without a
`children` key, allocator fresh from 1 — the input's dict identity 0 does
not occur in the output. -/
theorem C8_copy_on_write_witness :
    0 ∉ hAddrsList ((filter_optionsH (fun _ => true) 1
      [HNode.mk 0 [] [] none none]).2) := by
  intro h0
  exact C8_copy_on_write (fun _ => true) 1 [HNode.mk 0 [] [] none none]
    (by simp [hNoEmptyChildList, hNoEmptyChild])
    (by
      intro a ha
      simp only [hAddrsList, hAddrs, List.append_nil] at ha
      rcases List.mem_singleton.mp ha with rfl
      omega)
    0 h0 (by simp [hAddrsList, hAddrs])
